import Mathlib

/-!
Verification development for the Code RAG repository (aihelper-rag).

The repository is a retrieval-augmented code question-answering system:
a React front end (project management / training page, chat page with an
SSE stream consumer, agent chat hook, chat context with per-project
conversation lists) talking to a FastAPI backend (indexer, retriever,
BM25+vector reranker, streaming generator).  The front-end JavaScript is
embedded here definition by definition; the backend Python modules
(reranker.py, generator.py, api.py) are not part of the available source
tree, so the parts of them that claims depend on are modelled from the
specification document, and are marked as such in their doc comments.

Scores and weights are modelled as rationals (ℚ); strings are Lean
`String`s, and where JavaScript slices strings by code points we use the
underlying character list.
-/

namespace CodeRag

/-! ## Project index status (TrainingPage, src/unnamed/part_005)

`statusMap` in TrainingPage enumerates the four statuses a project can
carry: idle (未索引), indexing (索引中), indexed (已索引), error (失败). -/

inductive Status where
  | idle
  | indexing
  | indexed
  | error
deriving DecidableEq, Repr

/-- The SSE events `startIndexing` dispatches on: `scan_start`,
`indexing` (progress), `complete` (terminal success), `error`
(terminal failure).  Payload fields are irrelevant to the status
transitions and are omitted. -/
inductive IndexEvent where
  | scanStart
  | progress
  | complete
  | failed
deriving DecidableEq, Repr

/-- Status update performed by the event dispatch inside `startIndexing`
(part_005 lines 41-49): a `complete` event sets the project status to
`indexed`, an `error` event sets it to `error`, and the other event
kinds leave the status untouched. -/
def applyIndexEvent (s : Status) : IndexEvent → Status
  | .complete => .indexed
  | .failed => .error
  | _ => s

/-- The sequence of statuses the project passes through while processing
a list of events, starting from status `s` (state after each event). -/
def runEvents (s : Status) : List IndexEvent → List Status
  | [] => []
  | e :: es =>
    let t := applyIndexEvent s e
    t :: runEvents t es

/-- The full status trace of one `startIndexing` call (part_005 lines
22-59): the initial status, then `indexing` (set unconditionally before
the fetch), then the statuses after each received event; if the fetch or
the stream read throws (`aborted`), the catch block finally sets the
status to `error`. -/
def startIndexingTrace (init : Status) (events : List IndexEvent)
    (aborted : Bool) : List Status :=
  init :: Status.indexing ::
    (runEvents Status.indexing events ++ if aborted then [Status.error] else [])

/-- The transitions the specification's state machine allows:
idle → indexing, indexing → indexed, indexing → error,
indexed → indexing (re-index), error → indexing (retry). -/
def allowedMove : Status → Status → Bool
  | .idle, .indexing => true
  | .indexing, .indexed => true
  | .indexing, .error => true
  | .indexed, .indexing => true
  | .error, .indexing => true
  | _, _ => false

/-- A step of the status trace either leaves the status unchanged or is
one of the allowed transitions. -/
def statusStep (s t : Status) : Prop :=
  s = t ∨ allowedMove s t = true

instance : DecidableRel statusStep := fun s t =>
  inferInstanceAs (Decidable (s = t ∨ allowedMove s t = true))

/-- An event is non-terminal when it is a `scan_start` or progress
event. -/
def nonTerminal (e : IndexEvent) : Prop :=
  e = IndexEvent.scanStart ∨ e = IndexEvent.progress

instance : DecidablePred nonTerminal := fun e =>
  inferInstanceAs (Decidable (e = IndexEvent.scanStart ∨ e = IndexEvent.progress))

/-- A well-formed indexing job stream: terminal events (`complete` /
`error`) occur only in last position, and if the read loop aborts with
an exception no terminal event was delivered. -/
def wellFormedJob (events : List IndexEvent) (aborted : Bool) : Prop :=
  (∀ e ∈ events.dropLast, nonTerminal e) ∧
    (aborted = true → ∀ e ∈ events, nonTerminal e)

instance (events : List IndexEvent) (aborted : Bool) :
    Decidable (wellFormedJob events aborted) :=
  inferInstanceAs (Decidable (_ ∧ _))

lemma applyIndexEvent_nonTerminal {s : Status} {e : IndexEvent}
    (h : nonTerminal e) : applyIndexEvent s e = s := by
  rcases h with h | h <;> subst h <;> rfl

lemma runEvents_all_nonTerminal {l : List IndexEvent}
    (h : ∀ e ∈ l, nonTerminal e) :
    runEvents Status.indexing l = List.replicate l.length Status.indexing := by
  induction l with
  | nil => rfl
  | cons e es ih =>
    have he : nonTerminal e := h e (List.mem_cons_self e es)
    simp only [runEvents, applyIndexEvent_nonTerminal he, List.length_cons,
      List.replicate_succ, List.cons.injEq, true_and]
    exact ih fun x hx => h x (List.mem_cons_of_mem e hx)

lemma chain_replicate_indexing (n : Nat) :
    List.Chain' statusStep
      (Status.indexing :: (List.replicate n Status.indexing ++ [Status.error])) := by
  induction n with
  | zero => simp [List.chain'_cons, statusStep, allowedMove]
  | succ m ih =>
    simp only [List.replicate_succ, List.cons_append, List.chain'_cons] at *
    exact ⟨Or.inl rfl, ih⟩

lemma chain_runEvents {l : List IndexEvent}
    (h : ∀ e ∈ l.dropLast, nonTerminal e) :
    List.Chain' statusStep (Status.indexing :: runEvents Status.indexing l) := by
  induction l with
  | nil => simp [runEvents]
  | cons e es ih =>
    cases es with
    | nil =>
      simp only [runEvents, List.chain'_cons, List.chain'_singleton, and_true]
      cases e <;> simp [statusStep, applyIndexEvent, allowedMove]
    | cons f fs =>
      have he : nonTerminal e := by
        apply h
        simp [List.dropLast_cons₂]
      have hrest : ∀ x ∈ (f :: fs).dropLast, nonTerminal x := by
        intro x hx
        apply h
        simp only [List.dropLast_cons₂, List.mem_cons]
        exact Or.inr hx
      have := ih hrest
      simp only [runEvents, applyIndexEvent_nonTerminal he, List.chain'_cons] at *
      exact ⟨Or.inl rfl, this⟩

/-- **C2.** During a `startIndexing` run over a well-formed event
stream, the project status only moves along the allowed transitions
idle → indexing, indexing → indexed, indexing → error,
indexed → indexing, error → indexing (or stays unchanged): the status
becomes `indexed` only through the terminal `complete` event and
`error` only through an `error` event or a failed request, never
skipping the `indexing` state. -/
theorem startIndexing_status_transitions_allowed
    (init : Status) (events : List IndexEvent) (aborted : Bool)
    (hwf : wellFormedJob events aborted) :
    List.Chain' statusStep (startIndexingTrace init events aborted) := by
  unfold startIndexingTrace
  rw [List.chain'_cons]
  constructor
  · cases init <;> simp [statusStep, allowedMove]
  · cases aborted with
    | false =>
      simpa using chain_runEvents hwf.1
    | true =>
      have hall : ∀ e ∈ events, nonTerminal e := hwf.2 rfl
      rw [runEvents_all_nonTerminal hall]
      exact chain_replicate_indexing events.length

/-- Witness for C2: a concrete successful run from `idle` through
`indexing` to `indexed`. -/
theorem startIndexing_status_transitions_allowed_witness :
    List.Chain' statusStep
      (startIndexingTrace Status.idle
        [IndexEvent.scanStart, IndexEvent.progress, IndexEvent.complete] false) :=
  startIndexing_status_transitions_allowed Status.idle
    [IndexEvent.scanStart, IndexEvent.progress, IndexEvent.complete] false
    (by constructor <;> decide)

/-! ## Streaming question-answering consumer
(useStreamingChat.sendMessage, src/unnamed/part_004)

The consumer reads SSE `data:` lines, parses each into an event and
dispatches on `type`: a `sources` event replaces the `sources`
accumulator, a `content` event appends its delta to the `content`
accumulator, a `done` event invokes the completion callback with the
accumulated `{content, sources}`.  Events are modelled post-parse. -/

structure SourceRef where
  path : String
  module : String
  score : ℚ
deriving DecidableEq, Repr

inductive ChatEvent where
  | sources (data : List SourceRef)
  | content (data : String)
  | done
deriving DecidableEq, Repr

/-- The local state of one `sendMessage` call: the `content` and
`sources` accumulators, plus the list of arguments the `onComplete`
callback has been invoked with (in order). -/
structure ChatRun where
  content : String
  sources : List SourceRef
  completions : List (String × List SourceRef)
deriving DecidableEq, Repr

def initChatRun : ChatRun := ⟨"", [], []⟩

/-- The event dispatch of part_004 lines 44-53. -/
def applyChatEvent (st : ChatRun) : ChatEvent → ChatRun
  | .sources s => { st with sources := s }
  | .content d => { st with content := st.content ++ d }
  | .done => { st with completions := st.completions ++ [(st.content, st.sources)] }

/-- Processing a whole event sequence, as the read loop of
`sendMessage` does. -/
def sendMessageRun (events : List ChatEvent) : ChatRun :=
  events.foldl applyChatEvent initChatRun

/-- The content delta carried by an event, if any. -/
def contentDelta : ChatEvent → Option String
  | .content d => some d
  | _ => none

lemma foldl_append_left (l : List String) (x y : String) :
    List.foldl (fun r s => r ++ s) (x ++ y) l =
      x ++ List.foldl (fun r s => r ++ s) y l := by
  induction l generalizing y with
  | nil => rfl
  | cons s ss ih =>
    simp only [List.foldl_cons, String.append_assoc, ih]

lemma join_cons (a : String) (l : List String) :
    String.join (a :: l) = a ++ String.join l := by
  show List.foldl (fun r s => r ++ s) ("" ++ a) l = a ++ _
  rw [show ("" ++ a : String) = a ++ "" by simp]
  exact foldl_append_left l a ""

lemma foldl_content_events (st : ChatRun) (deltas : List String) :
    List.foldl applyChatEvent st (deltas.map ChatEvent.content) =
      { st with content := st.content ++ String.join deltas } := by
  induction deltas generalizing st with
  | nil => simp [String.join]
  | cons d ds ih =>
    simp only [List.map_cons, List.foldl_cons, applyChatEvent, ih, join_cons]
    congr 1
    simp [String.append_assoc]

/-- **C3.** For a well-formed question-answering stream — one `sources`
event, then N content deltas, then one terminal `done` — the consumer
invokes the completion callback exactly once, with the answer equal to
the in-order concatenation of the deltas and the sources equal to the
list carried by the `sources` event. -/
theorem sendMessage_wellformed_stream_completes_once
    (srcs : List SourceRef) (deltas : List String) :
    sendMessageRun
        (ChatEvent.sources srcs :: (deltas.map ChatEvent.content ++ [ChatEvent.done])) =
      { content := String.join deltas
        sources := srcs
        completions := [(String.join deltas, srcs)] } := by
  unfold sendMessageRun initChatRun
  rw [List.foldl_cons, List.foldl_append, foldl_content_events]
  simp [applyChatEvent]

lemma foldl_content_extends (st : ChatRun) (events : List ChatEvent) :
    ∃ rest, (List.foldl applyChatEvent st events).content = st.content ++ rest := by
  induction events generalizing st with
  | nil => exact ⟨"", by simp⟩
  | cons e es ih =>
    rcases ih (applyChatEvent st e) with ⟨r, hr⟩
    cases e with
    | sources s => exact ⟨r, by simpa [applyChatEvent] using hr⟩
    | content d =>
      refine ⟨d ++ r, ?_⟩
      rw [List.foldl_cons, hr]
      simp [applyChatEvent, String.append_assoc]
    | done => exact ⟨r, by simpa [applyChatEvent] using hr⟩

lemma foldl_no_done_content (st : ChatRun) (events : List ChatEvent)
    (h : ChatEvent.done ∉ events) :
    (List.foldl applyChatEvent st events).content =
      st.content ++ String.join (events.filterMap contentDelta) := by
  induction events generalizing st with
  | nil => simp [String.join]
  | cons e es ih =>
    have hes : ChatEvent.done ∉ es := fun hx => h (List.mem_cons_of_mem e hx)
    cases e with
    | sources s =>
      rw [List.foldl_cons]
      show (List.foldl applyChatEvent { st with sources := s } es).content = _
      rw [ih _ hes]
      simp [contentDelta]
    | content d =>
      rw [List.foldl_cons]
      show (List.foldl applyChatEvent { st with content := st.content ++ d } es).content = _
      rw [ih _ hes]
      simp only [List.filterMap_cons, contentDelta, join_cons, String.append_assoc]
    | done => exact absurd (List.mem_cons_self _ _) h

lemma foldl_no_done_completions (st : ChatRun) (events : List ChatEvent)
    (h : ChatEvent.done ∉ events) :
    (List.foldl applyChatEvent st events).completions = st.completions := by
  induction events generalizing st with
  | nil => rfl
  | cons e es ih =>
    have hes : ChatEvent.done ∉ es := fun hx => h (List.mem_cons_of_mem e hx)
    cases e with
    | sources s => exact ih _ hes
    | content d => exact ih _ hes
    | done => exact absurd (List.mem_cons_self _ _) h

/-- **C4.** If the stream is interrupted — the delivered events contain
no `done` — the completion callback is never invoked, the accumulated
content equals the in-order concatenation of the deltas already
delivered (partial content is retained, not retracted), and every
prefix of the run only ever extends the accumulated content. -/
theorem sendMessage_interrupted_no_completion
    (events : List ChatEvent) (h : ChatEvent.done ∉ events) :
    (sendMessageRun events).completions = [] ∧
      (sendMessageRun events).content =
        String.join (events.filterMap contentDelta) ∧
      ∀ pre suf, events = pre ++ suf →
        ∃ rest, (sendMessageRun events).content = (sendMessageRun pre).content ++ rest := by
  refine ⟨?_, ?_, ?_⟩
  · unfold sendMessageRun
    rw [foldl_no_done_completions _ _ h]
    rfl
  · unfold sendMessageRun
    rw [foldl_no_done_content _ _ h]
    simp [initChatRun]
  · intro pre suf hsplit
    subst hsplit
    unfold sendMessageRun
    rw [List.foldl_append]
    exact foldl_content_extends _ suf

/-- Witness for C4: an interruption after a `sources` event and two
content frames leaves both frames accumulated and the callback
uninvoked. -/
theorem sendMessage_interrupted_no_completion_witness :
    (sendMessageRun
        [ChatEvent.sources [], ChatEvent.content "partial ", ChatEvent.content "answer"]).completions = [] ∧
      (sendMessageRun
        [ChatEvent.sources [], ChatEvent.content "partial ", ChatEvent.content "answer"]).content =
        String.join
          ([ChatEvent.sources [], ChatEvent.content "partial ",
            ChatEvent.content "answer"].filterMap contentDelta) :=
  have h := sendMessage_interrupted_no_completion
    [ChatEvent.sources [], ChatEvent.content "partial ", ChatEvent.content "answer"]
    (by decide)
  ⟨h.1, h.2.1⟩

/-! ## API client (src/unnamed/part_007) and chat gating
(src/web/src/pages/ChatPage.jsx) -/

/-- The JSON body `chatApi.askStream` posts to `/ask/stream`
(part_007 lines 74-79). -/
structure AskRequest where
  project_id : String
  question : String
  top_k : Nat
deriving DecidableEq, Repr

/-- `chatApi.askStream(projectId, question, topK = 50)`: builds the
request body `{project_id, question, top_k: topK}` with the default
parameter `topK = 50`. -/
def askStream (projectId question : String) (topK : Nat := 50) : AskRequest :=
  { project_id := projectId, question := question, top_k := topK }

/-- `sendMessage` (part_004 line 20) calls
`chatApi.askStream(projectId, question)` without a third argument. -/
def sendMessageRequest (projectId question : String) : AskRequest :=
  askStream projectId question

/-- A project as the front end sees it (ProjectContext / ChatPage). -/
structure Project where
  id : String
  name : String
  status : Status
  file_count : Nat
deriving DecidableEq, Repr

/-- `SidebarContent` (ChatPage.jsx line 63):
`projects.filter(p => p.status === 'indexed')`; only these are offered
as options of the project selector. -/
def indexedProjects (projects : List Project) : List Project :=
  projects.filter fun p => p.status == Status.indexed

/-- `selectedProject` (ProjectContext, part_002 line 43):
`projects.find(p => p.id === selectedProjectId)`. -/
def findSelectedProject (projects : List Project) : Option String → Option Project
  | none => none
  | some i => projects.find? fun p => p.id == i

/-- `canSend` (ChatPage.jsx line 178):
`!!selectedProjectId && selectedProject?.status === 'indexed'`. -/
def canSend (projects : List Project) (selectedProjectId : Option String) : Bool :=
  selectedProjectId.isSome &&
    match findSelectedProject projects selectedProjectId with
    | some p => p.status == Status.indexed
    | none => false

/-- `handleSend` (ChatPage.jsx lines 184-202): returns early when the
trimmed question is empty or `canSend` is false; otherwise issues the
streaming request via `sendMessage`. -/
def handleSend (projects : List Project) (selectedProjectId : Option String)
    (input : String) : Option AskRequest :=
  let q := input.trim
  if q.isEmpty then none
  else
    match selectedProjectId with
    | some i =>
      if canSend projects (some i) then some (sendMessageRequest i q) else none
    | none => none

/-- The errors of the question-answering endpoint named by the
specification taxonomy (§7). -/
inductive AskFailure where
  | projectNotIndexed
  | generationFailed
deriving DecidableEq, Repr

/-- Modelled from the spec: api.py and retriever.py are not in the
available source tree.  §4.5 and the §8 scenario: a request against a
project that is not indexed fails with `ProjectNotIndexed` before any
embedding call is made; otherwise the question is embedded (one
embedding call) and the pipeline proceeds.  The second component counts
the embedding calls the handler performs. -/
def serverAskStream (proj : Project) (req : AskRequest) :
    Except AskFailure AskRequest × Nat :=
  if proj.status == Status.indexed then (Except.ok req, 1)
  else (Except.error AskFailure.projectNotIndexed, 0)

/-- Modelled from the spec: §4.5/§4.6 — the Retriever returns the
`top_k` highest-ranked candidates and the Reranker is given exactly
those `top_k` candidates.  `ranked` is the full similarity-ordered
candidate list of the collection. -/
def rerankerInput (ranked : List String) (req : AskRequest) : List String :=
  ranked.take req.top_k

/-- **C5.** A question-answering request in which the caller does not
pass a retrieval breadth (as `sendMessage` does) carries
`top_k = 50`, and the reranker receives those `top_k = 50` candidates
from the retriever. -/
theorem askStream_default_top_k_50
    (projectId question : String) (ranked : List String) :
    (sendMessageRequest projectId question).top_k = 50 ∧
      rerankerInput ranked (sendMessageRequest projectId question) =
        ranked.take 50 := by
  exact ⟨rfl, rfl⟩

/-- **C6.** A question is never issued against a project that is not
indexed: the selector offers exactly the projects with status
`indexed`; `handleSend` produces a request only when the selected
project's status is `indexed`; and a request that does reach the server
against an `idle` project fails with `ProjectNotIndexed` with zero
embedding calls made. -/
theorem question_requires_indexed_project
    (projects : List Project) (selectedProjectId : Option String)
    (input : String) (proj : Project) (req : AskRequest)
    (hidle : proj.status = Status.idle) :
    (∀ p, p ∈ indexedProjects projects ↔ p ∈ projects ∧ p.status = Status.indexed) ∧
      (∀ r, handleSend projects selectedProjectId input = some r →
        ∃ p, findSelectedProject projects selectedProjectId = some p ∧
          p.status = Status.indexed) ∧
      serverAskStream proj req = (Except.error AskFailure.projectNotIndexed, 0) := by
  refine ⟨?_, ?_, ?_⟩
  · intro p
    simp only [indexedProjects, List.mem_filter, beq_iff_eq]
  · intro r hr
    unfold handleSend at hr
    by_cases hq : input.trim.isEmpty
    · simp [hq] at hr
    · cases selectedProjectId with
      | none => simp [hq] at hr
      | some i =>
        simp only [hq, if_false, Bool.false_eq_true] at hr
        by_cases hc : canSend projects (some i) = true
        · unfold canSend at hc
          cases hfind : findSelectedProject projects (some i) with
          | none => rw [hfind] at hc; simp at hc
          | some p =>
            refine ⟨p, rfl, ?_⟩
            rw [hfind] at hc
            simpa using hc
        · rw [if_neg hc] at hr
          exact absurd hr (by simp)
  · unfold serverAskStream
    rw [hidle]
    rfl

/-- Witness for C6: a concrete project list with one indexed and one
idle project, the idle one selected. -/
theorem question_requires_indexed_project_witness :
    (∀ p, p ∈ indexedProjects
        [⟨"p1", "alpha", Status.indexed, 3⟩, ⟨"p2", "beta", Status.idle, 0⟩] ↔
      p ∈ [⟨"p1", "alpha", Status.indexed, 3⟩, ⟨"p2", "beta", Status.idle, 0⟩] ∧
        p.status = Status.indexed) ∧
      (∀ r, handleSend
          [⟨"p1", "alpha", Status.indexed, 3⟩, ⟨"p2", "beta", Status.idle, 0⟩]
          (some "p2") "why?" = some r →
        ∃ p, findSelectedProject
            [⟨"p1", "alpha", Status.indexed, 3⟩, ⟨"p2", "beta", Status.idle, 0⟩]
            (some "p2") = some p ∧ p.status = Status.indexed) ∧
      serverAskStream ⟨"p2", "beta", Status.idle, 0⟩ ⟨"p2", "why?", 50⟩ =
        (Except.error AskFailure.projectNotIndexed, 0) :=
  question_requires_indexed_project
    [⟨"p1", "alpha", Status.indexed, 3⟩, ⟨"p2", "beta", Status.idle, 0⟩]
    (some "p2") "why?" ⟨"p2", "beta", Status.idle, 0⟩ ⟨"p2", "why?", 50⟩ rfl

/-! ## Reranker scoring

Modelled from the spec: reranker.py is not in the available source
tree (the repository documentation, src/unnamed/part_000 §2.3, records
its pipeline).  Spec §4.6: normalize `vector_score` and `bm25_score`
independently to [0,1] within the candidate batch by min-max
normalization, then `hybrid_score = 0.4 × normalized_vector_score +
0.6 × normalized_bm25_score`. -/

structure Candidate where
  vector_score : ℚ
  bm25_score : ℚ
deriving DecidableEq, Repr

/-- Smallest score of a batch (0 on an empty batch). -/
def batchMin : List ℚ → ℚ
  | [] => 0
  | s :: rest => rest.foldl min s

/-- Largest score of a batch (0 on an empty batch). -/
def batchMax : List ℚ → ℚ
  | [] => 0
  | s :: rest => rest.foldl max s

/-- Modelled from the spec: min-max normalization of a raw score `x`
within the batch `scores` (§4.6 step 3); a degenerate batch whose
scores are all equal normalizes to 0. -/
def minMaxNormalize (scores : List ℚ) (x : ℚ) : ℚ :=
  if batchMax scores = batchMin scores then 0
  else (x - batchMin scores) / (batchMax scores - batchMin scores)

/-- Modelled from the spec: the hybrid score of a candidate within its
batch (§4.6 step 4), with the fixed 0.4/0.6 weights. -/
def hybridScore (batch : List Candidate) (c : Candidate) : ℚ :=
  0.4 * minMaxNormalize (batch.map Candidate.vector_score) c.vector_score +
    0.6 * minMaxNormalize (batch.map Candidate.bm25_score) c.bm25_score

lemma foldl_min_le_init {α : Type} [LinearOrder α] (l : List α) (a : α) :
    l.foldl min a ≤ a := by
  induction l generalizing a with
  | nil => exact le_refl a
  | cons b bs ih =>
    exact le_trans (ih (min a b)) (min_le_left a b)

lemma foldl_min_le_mem {α : Type} [LinearOrder α] {l : List α} {x : α} (a : α)
    (h : x ∈ l) : l.foldl min a ≤ x := by
  induction l generalizing a with
  | nil => cases h
  | cons b bs ih =>
    rcases List.mem_cons.mp h with rfl | hx
    · exact le_trans (foldl_min_le_init bs (min a x)) (min_le_right a x)
    · exact ih _ hx

lemma le_foldl_max_init {α : Type} [LinearOrder α] (l : List α) (a : α) :
    a ≤ l.foldl max a := by
  induction l generalizing a with
  | nil => exact le_refl a
  | cons b bs ih =>
    exact le_trans (le_max_left a b) (ih (max a b))

lemma le_foldl_max_mem {α : Type} [LinearOrder α] {l : List α} {x : α} (a : α)
    (h : x ∈ l) : x ≤ l.foldl max a := by
  induction l generalizing a with
  | nil => cases h
  | cons b bs ih =>
    rcases List.mem_cons.mp h with rfl | hx
    · exact le_trans (le_max_right a x) (le_foldl_max_init bs (max a x))
    · exact ih _ hx

lemma batchMin_le_of_mem {scores : List ℚ} {x : ℚ} (h : x ∈ scores) :
    batchMin scores ≤ x := by
  cases scores with
  | nil => cases h
  | cons s rest =>
    rcases List.mem_cons.mp h with rfl | hx
    · exact foldl_min_le_init rest x
    · exact foldl_min_le_mem s hx

lemma le_batchMax_of_mem {scores : List ℚ} {x : ℚ} (h : x ∈ scores) :
    x ≤ batchMax scores := by
  cases scores with
  | nil => cases h
  | cons s rest =>
    rcases List.mem_cons.mp h with rfl | hx
    · exact le_foldl_max_init rest x
    · exact le_foldl_max_mem s hx

lemma minMaxNormalize_mem_unit {scores : List ℚ} {x : ℚ} (h : x ∈ scores) :
    0 ≤ minMaxNormalize scores x ∧ minMaxNormalize scores x ≤ 1 := by
  unfold minMaxNormalize
  by_cases hdeg : batchMax scores = batchMin scores
  · simp [hdeg]
  · have hlo : batchMin scores ≤ x := batchMin_le_of_mem h
    have hhi : x ≤ batchMax scores := le_batchMax_of_mem h
    have hlt : batchMin scores < batchMax scores :=
      lt_of_le_of_ne (le_trans hlo hhi) (Ne.symm hdeg)
    have hpos : (0 : ℚ) < batchMax scores - batchMin scores := by linarith
    rw [if_neg hdeg]
    constructor
    · apply div_nonneg (by linarith) (le_of_lt hpos)
    · rw [div_le_one hpos]
      linarith

/-- **C1.** Within a candidate batch, the hybrid score is exactly
`0.4 × normalized_vector_score + 0.6 × normalized_bm25_score`, both
factors being the batch-wise min-max normalizations (which land in
[0,1] for a candidate of the batch); consequently it is a deterministic
function of `(vector_score, bm25_score)`: two candidates of the batch
with equal raw scores receive equal hybrid scores. -/
theorem hybrid_score_formula_deterministic
    (batch : List Candidate) (c c₂ : Candidate) (hmem : c ∈ batch)
    (hv : c.vector_score = c₂.vector_score)
    (hb : c.bm25_score = c₂.bm25_score) :
    hybridScore batch c =
      0.4 * minMaxNormalize (batch.map Candidate.vector_score) c.vector_score +
        0.6 * minMaxNormalize (batch.map Candidate.bm25_score) c.bm25_score ∧
      (0 ≤ minMaxNormalize (batch.map Candidate.vector_score) c.vector_score ∧
        minMaxNormalize (batch.map Candidate.vector_score) c.vector_score ≤ 1) ∧
      (0 ≤ minMaxNormalize (batch.map Candidate.bm25_score) c.bm25_score ∧
        minMaxNormalize (batch.map Candidate.bm25_score) c.bm25_score ≤ 1) ∧
      hybridScore batch c = hybridScore batch c₂ := by
  refine ⟨rfl, ?_, ?_, ?_⟩
  · exact minMaxNormalize_mem_unit (List.mem_map_of_mem Candidate.vector_score hmem)
  · exact minMaxNormalize_mem_unit (List.mem_map_of_mem Candidate.bm25_score hmem)
  · unfold hybridScore
    rw [hv, hb]

/-- Witness for C1: a concrete two-candidate batch. -/
theorem hybrid_score_formula_deterministic_witness :
    hybridScore [⟨(1 : ℚ)/2, 3⟩, ⟨(1 : ℚ)/4, 1⟩] ⟨(1 : ℚ)/2, 3⟩ =
        0.4 * minMaxNormalize
            ([⟨(1 : ℚ)/2, 3⟩, ⟨(1 : ℚ)/4, 1⟩].map Candidate.vector_score) ((1 : ℚ)/2) +
          0.6 * minMaxNormalize
            ([⟨(1 : ℚ)/2, 3⟩, ⟨(1 : ℚ)/4, 1⟩].map Candidate.bm25_score) 3 ∧
      (0 ≤ minMaxNormalize
          ([⟨(1 : ℚ)/2, 3⟩, ⟨(1 : ℚ)/4, 1⟩].map Candidate.vector_score) ((1 : ℚ)/2) ∧
        minMaxNormalize
          ([⟨(1 : ℚ)/2, 3⟩, ⟨(1 : ℚ)/4, 1⟩].map Candidate.vector_score) ((1 : ℚ)/2) ≤ 1) ∧
      (0 ≤ minMaxNormalize
          ([⟨(1 : ℚ)/2, 3⟩, ⟨(1 : ℚ)/4, 1⟩].map Candidate.bm25_score) 3 ∧
        minMaxNormalize
          ([⟨(1 : ℚ)/2, 3⟩, ⟨(1 : ℚ)/4, 1⟩].map Candidate.bm25_score) 3 ≤ 1) ∧
      hybridScore [⟨(1 : ℚ)/2, 3⟩, ⟨(1 : ℚ)/4, 1⟩] ⟨(1 : ℚ)/2, 3⟩ =
        hybridScore [⟨(1 : ℚ)/2, 3⟩, ⟨(1 : ℚ)/4, 1⟩] ⟨(1 : ℚ)/2, 3⟩ :=
  hybrid_score_formula_deterministic [⟨(1 : ℚ)/2, 3⟩, ⟨(1 : ℚ)/4, 1⟩]
    ⟨(1 : ℚ)/2, 3⟩ ⟨(1 : ℚ)/2, 3⟩ (by simp) rfl rfl

/-! ## Generator prompt

Modelled from the spec: generator.py is not in the available source
tree (the repository documentation, src/unnamed/part_000 §2.4, records
the prompt layout).  Spec §4.7: the reranked chunks are each rendered
as `--- file {i}: {path} (module: {module}) ---` followed by the
content capped at 1500 characters, and the literal question comes
after all chunks. -/

structure Chunk where
  path : String
  module : String
  content : String
deriving DecidableEq, Repr

/-- Code-point slice `content[:n]`, as Python string slicing does. -/
def contentPreview (s : String) (n : Nat) : String :=
  String.mk (s.data.take n)

/-- Modelled from the spec: the header line of chunk number `i`
(1-based) in the prompt. -/
def promptHeader (i : Nat) (c : Chunk) : String :=
  "--- file " ++ toString i ++ ": " ++ c.path ++ " (module: " ++ c.module ++ ") ---\n"

/-- Modelled from the spec: the full rendering of one chunk — its
header followed by the capped content. -/
def renderChunk (i : Nat) (c : Chunk) : String :=
  promptHeader i c ++ contentPreview c.content 1500 ++ "\n\n"

/-- Modelled from the spec: the user prompt — all chunk renderings in
order, then the literal question. -/
def buildPrompt (chunks : List Chunk) (question : String) : String :=
  String.join ((List.enumFrom 1 chunks).map fun p => renderChunk p.1 p.2) ++
    "---\n\nQuestion: " ++ question

lemma join_map_mem_split {α : Type} (f : α → String) {l : List α} {x : α}
    (h : x ∈ l) :
    ∃ pre suf, String.join (l.map f) = pre ++ f x ++ suf := by
  induction l with
  | nil => cases h
  | cons b bs ih =>
    rcases List.mem_cons.mp h with rfl | hx
    · exact ⟨"", String.join (bs.map f), by simp [join_cons]⟩
    · rcases ih hx with ⟨pre, suf, hps⟩
      refine ⟨f b ++ pre, suf, ?_⟩
      simp only [List.map_cons, join_cons, hps, String.append_assoc]

/-- **C7.** Every reranked chunk appears in the generation prompt
under its header `--- file {i}: {path} (module: {module}) ---`
followed by its content truncated to at most 1500 characters (the
content verbatim when it is short enough), and the literal question
comes after all the rendered chunks. -/
theorem prompt_renders_chunks_then_question
    (chunks : List Chunk) (question : String) (i : Nat) (c : Chunk)
    (hmem : (i, c) ∈ List.enumFrom 1 chunks) :
    (∃ pre suf, buildPrompt chunks question =
        pre ++ (promptHeader i c ++ contentPreview c.content 1500) ++ suf) ∧
      (contentPreview c.content 1500).length ≤ 1500 ∧
      (c.content.length ≤ 1500 → contentPreview c.content 1500 = c.content) ∧
      buildPrompt chunks question =
        String.join ((List.enumFrom 1 chunks).map fun p => renderChunk p.1 p.2) ++
          "---\n\nQuestion: " ++ question := by
  refine ⟨?_, ?_, ?_, rfl⟩
  · rcases join_map_mem_split (fun p => renderChunk p.1 p.2) hmem with ⟨pre, suf, hps⟩
    refine ⟨pre, "\n\n" ++ (suf ++ ("---\n\nQuestion: " ++ question)), ?_⟩
    unfold buildPrompt
    rw [hps]
    simp only [renderChunk, String.append_assoc]
  · show (c.content.data.take 1500).length ≤ 1500
    simp only [List.length_take]
    exact Nat.min_le_left 1500 c.content.data.length
  · intro hlen
    unfold contentPreview
    rw [List.take_of_length_le hlen]

/-- Witness for C7: a one-chunk prompt. -/
theorem prompt_renders_chunks_then_question_witness :
    (∃ pre suf,
        buildPrompt [⟨"a/Login.jsx", "a", "login handler"⟩] "find the login code" =
          pre ++ (promptHeader 1 ⟨"a/Login.jsx", "a", "login handler"⟩ ++
            contentPreview "login handler" 1500) ++ suf) ∧
      (contentPreview "login handler" 1500).length ≤ 1500 ∧
      (("login handler" : String).length ≤ 1500 →
        contentPreview "login handler" 1500 = "login handler") ∧
      buildPrompt [⟨"a/Login.jsx", "a", "login handler"⟩] "find the login code" =
        String.join ((List.enumFrom 1 [⟨"a/Login.jsx", "a", "login handler"⟩]).map
            fun p => renderChunk p.1 p.2) ++
          "---\n\nQuestion: " ++ "find the login code" :=
  prompt_renders_chunks_then_question [⟨"a/Login.jsx", "a", "login handler"⟩]
    "find the login code" 1 ⟨"a/Login.jsx", "a", "login handler"⟩ (by simp)


/-! ## Agent-chat SSE line buffering (useAgentChat.runAgent,
src/web/src/hooks/useAgentChat.js lines 36-72)

The read loop keeps a string `buffer`; on each chunk it appends the
decoded chunk, splits on newlines, pops the trailing (possibly
incomplete) line back into the buffer and processes the complete lines;
lines starting with `data: ` are sliced past the prefix and parsed.
Streams are modelled as character lists (TextDecoder already handles
multi-byte splits). -/

/-- JavaScript `s.split('\n')` on a character list: always returns at
least one (possibly empty) piece. -/
def jsLines : List Char → List (List Char)
  | [] => [[]]
  | c :: cs =>
    if c = '\n' then [] :: jsLines cs
    else (jsLines cs).modifyHead fun l => c :: l

/-- JavaScript `lines.pop()` on a never-empty split result. -/
def popLast (L : List (List Char)) : List Char :=
  L.getLast?.getD []

lemma modifyHead_nil_prepend (L : List (List Char)) :
    L.modifyHead (fun l => [] ++ l) = L := by
  cases L <;> rfl

lemma modifyHead_ne_nil {α : Type} (f : α → α) {L : List α} (h : L ≠ []) :
    L.modifyHead f ≠ [] := by
  cases L with
  | nil => exact absurd rfl h
  | cons a l => simp [List.modifyHead]

lemma jsLines_ne_nil (s : List Char) : jsLines s ≠ [] := by
  induction s with
  | nil => simp [jsLines]
  | cons c cs ih =>
    by_cases hc : c = '\n'
    · simp [jsLines, hc]
    · simp only [jsLines, if_neg hc]
      exact modifyHead_ne_nil _ ih

lemma jsLines_no_newline {s : List Char} (h : '\n' ∉ s) : jsLines s = [s] := by
  induction s with
  | nil => rfl
  | cons c cs ih =>
    have hc : c ≠ '\n' := fun he => h (he ▸ List.mem_cons_self c cs)
    have hcs : '\n' ∉ cs := fun hm => h (List.mem_cons_of_mem c hm)
    simp [jsLines, hc, ih hcs, List.modifyHead]

lemma popLast_cons_cons (a b : List Char) (L : List (List Char)) :
    popLast (a :: b :: L) = popLast (b :: L) := by
  unfold popLast
  rw [List.getLast?_cons_cons]

lemma popLast_append_right (L M : List (List Char)) (h : M ≠ []) :
    popLast (L ++ M) = popLast M := by
  unfold popLast
  rw [List.getLast?_append_of_ne_nil L h]

/-- Splitting a concatenation: the complete lines of `a` survive, and
the trailing line of `a` is glued onto the first line of `b`. -/
lemma jsLines_append (a b : List Char) :
    jsLines (a ++ b) =
      (jsLines a).dropLast ++
        (jsLines b).modifyHead (fun l => popLast (jsLines a) ++ l) := by
  induction a with
  | nil =>
    show jsLines b = [] ++ (jsLines b).modifyHead fun l => [] ++ l
    rw [List.nil_append, modifyHead_nil_prepend]
  | cons c cs ih =>
    by_cases hc : c = '\n'
    · subst hc
      cases hcs : jsLines cs with
      | nil => exact absurd hcs (jsLines_ne_nil cs)
      | cons m ms =>
        show [] :: jsLines (cs ++ b) = ([] :: jsLines cs).dropLast ++
          (jsLines b).modifyHead fun l => popLast ([] :: jsLines cs) ++ l
        rw [ih, hcs, List.dropLast_cons₂, popLast_cons_cons, List.cons_append]
    · cases hcs : jsLines cs with
      | nil => exact absurd hcs (jsLines_ne_nil cs)
      | cons m ms =>
        cases hb : jsLines b with
        | nil => exact absurd hb (jsLines_ne_nil b)
        | cons hb0 tb =>
          have hl : jsLines (c :: cs ++ b) =
              (jsLines (cs ++ b)).modifyHead fun l => c :: l := by
            simp [jsLines, hc]
          have hr : jsLines (c :: cs) = (c :: m) :: ms := by
            simp [jsLines, hc, hcs, List.modifyHead]
          rw [hl, ih, hcs, hr]
          cases ms with
          | nil =>
            rw [hb]
            simp [List.modifyHead, popLast]
          | cons m2 ms2 =>
            rw [List.dropLast_cons₂, List.dropLast_cons₂]
            rw [popLast_cons_cons m m2 ms2, popLast_cons_cons (c :: m) m2 ms2]
            rw [hb]
            simp [List.modifyHead]

/-- The trailing line of a split never contains a newline. -/
lemma popLast_jsLines_no_newline (s : List Char) :
    '\n' ∉ popLast (jsLines s) := by
  induction s with
  | nil => simp [jsLines, popLast]
  | cons c cs ih =>
    by_cases hc : c = '\n'
    · subst hc
      cases hcs : jsLines cs with
      | nil => exact absurd hcs (jsLines_ne_nil cs)
      | cons m ms =>
        rw [hcs] at ih
        show '\n' ∉ popLast ([] :: jsLines cs)
        rw [hcs, popLast_cons_cons]
        exact ih
    · cases hcs : jsLines cs with
      | nil => exact absurd hcs (jsLines_ne_nil cs)
      | cons m ms =>
        rw [hcs] at ih
        have hr : jsLines (c :: cs) = (c :: m) :: ms := by
          simp [jsLines, hc, hcs, List.modifyHead]
        rw [hr]
        cases ms with
        | nil =>
          simp only [popLast, List.getLast?, Option.getD] at *
          intro hmem
          rcases List.mem_cons.mp hmem with he | hm
          · exact hc he.symm
          · exact ih hm
        | cons m2 ms2 =>
          rw [popLast_cons_cons (c :: m) m2 ms2]
          rw [popLast_cons_cons m m2 ms2] at ih
          exact ih

/-- The reader state of `runAgent`: the complete lines dispatched so
far (in order) and the carried-over `buffer`. -/
structure ReaderState where
  dispatched : List (List Char)
  buffer : List Char
deriving DecidableEq, Repr

/-- One iteration of the `runAgent` read loop (useAgentChat.js lines
43-45): append the chunk to the buffer, split on newlines, pop the
trailing line back into the buffer, dispatch the complete lines. -/
def readChunk (st : ReaderState) (chunk : List Char) : ReaderState :=
  let ls := jsLines (st.buffer ++ chunk)
  { dispatched := st.dispatched ++ ls.dropLast, buffer := popLast ls }

/-- Running the whole read loop from the initial empty state. -/
def runReader (chunks : List (List Char)) : ReaderState :=
  chunks.foldl readChunk ⟨[], []⟩

/-- The `data: ` prefix test of useAgentChat.js line 48. -/
def isDataLine (l : List Char) : Bool :=
  List.isPrefixOf "data: ".data l

/-- The payloads handed to `JSON.parse` (useAgentChat.js line 50):
each `data: ` line sliced past the 6-character prefix, in order. -/
def dataPayloads (lines : List (List Char)) : List (List Char) :=
  (lines.filter isDataLine).map (List.drop 6)

lemma foldl_readChunk_closed (st : ReaderState) (chunks : List (List Char))
    (hbuf : '\n' ∉ st.buffer) :
    List.foldl readChunk st chunks =
      { dispatched := st.dispatched ++ (jsLines (st.buffer ++ chunks.flatten)).dropLast
        buffer := popLast (jsLines (st.buffer ++ chunks.flatten)) } := by
  induction chunks generalizing st with
  | nil =>
    rw [List.foldl_nil, List.flatten_nil, List.append_nil,
      jsLines_no_newline hbuf]
    show st = ReaderState.mk (st.dispatched ++ []) st.buffer
    rw [List.append_nil]
  | cons ch rest ih =>
    rw [List.foldl_cons]
    have hbuf2 : '\n' ∉ (readChunk st ch).buffer :=
      popLast_jsLines_no_newline (st.buffer ++ ch)
    rw [ih _ hbuf2]
    have hM : (jsLines rest.flatten).modifyHead
        (fun l => popLast (jsLines (st.buffer ++ ch)) ++ l) ≠ [] :=
      modifyHead_ne_nil _ (jsLines_ne_nil rest.flatten)
    have hsplit : jsLines (st.buffer ++ (ch :: rest).flatten) =
        (jsLines (st.buffer ++ ch)).dropLast ++
          (jsLines rest.flatten).modifyHead
            (fun l => popLast (jsLines (st.buffer ++ ch)) ++ l) := by
      have hassoc : st.buffer ++ (ch :: rest).flatten =
          (st.buffer ++ ch) ++ rest.flatten := by
        rw [List.flatten_cons, List.append_assoc]
      rw [hassoc]
      exact jsLines_append (st.buffer ++ ch) rest.flatten
    have hbuf3 : jsLines ((readChunk st ch).buffer ++ rest.flatten) =
        (jsLines rest.flatten).modifyHead
          (fun l => popLast (jsLines (st.buffer ++ ch)) ++ l) := by
      show jsLines (popLast (jsLines (st.buffer ++ ch)) ++ rest.flatten) = _
      rw [jsLines_append,
        jsLines_no_newline (popLast_jsLines_no_newline (st.buffer ++ ch))]
      rfl
    rw [hbuf3, hsplit]
    rw [List.dropLast_append_of_ne_nil _ hM, popLast_append_right _ _ hM]
    simp [readChunk, List.append_assoc]

/-- **C8.** The agent-chat SSE parse is invariant under re-chunking:
for every way of splitting the byte stream into read chunks, the reader
ends in exactly the state it reaches on the unsplit stream — the
dispatched complete lines (and hence the sequence of `data: ` payloads
handed to the event dispatch) are exactly the lines of the whole
stream, each parsed once, the trailing incomplete line of each chunk
being buffered and prepended to the next chunk. -/
theorem agent_stream_rechunking_invariant (chunks : List (List Char)) :
    runReader chunks = runReader [chunks.flatten] ∧
      (runReader chunks).dispatched = (jsLines chunks.flatten).dropLast ∧
      dataPayloads (runReader chunks).dispatched =
        dataPayloads ((jsLines chunks.flatten).dropLast) := by
  have h1 : runReader chunks = ReaderState.mk
      ((jsLines chunks.flatten).dropLast) (popLast (jsLines chunks.flatten)) := by
    unfold runReader
    rw [foldl_readChunk_closed ⟨[], []⟩ chunks (by simp)]
    rfl
  have h2 : runReader [chunks.flatten] = ReaderState.mk
      ((jsLines chunks.flatten).dropLast) (popLast (jsLines chunks.flatten)) := by
    unfold runReader
    rw [foldl_readChunk_closed ⟨[], []⟩ [chunks.flatten] (by simp)]
    simp
  refine ⟨h1.trans h2.symm, ?_, ?_⟩
  · rw [h1]
  · rw [h1]

/-! ## Conversation store (ChatContext, src/unnamed/part_001)

`conversationsByProject` maps a project id to its conversation list
(`prev[selectedProjectId] || []` makes a missing key behave as the
empty list, so the map is modelled as a total function with default
`[]`).  `currentConversationId` is the selected conversation, if
any. -/

structure ChatMessage where
  role : String
  content : String
  sources : List SourceRef
deriving DecidableEq, Repr

structure Conversation where
  id : String
  title : String
  messages : List ChatMessage
  createdAt : String
deriving DecidableEq, Repr

structure ChatCtxState where
  convMap : String → List Conversation
  currentConversationId : Option String

/-- `deleteConversation(conversationId)` (part_001 lines 89-100):
returns unchanged when no project is selected; otherwise filters the
selected project's list by `c.id !== conversationId` and resets
`currentConversationId` to null when it equals the deleted id. -/
def deleteConversation (selectedProjectId : Option String)
    (st : ChatCtxState) (conversationId : String) : ChatCtxState :=
  match selectedProjectId with
  | none => st
  | some pid =>
    { convMap := fun k =>
        if k = pid then (st.convMap pid).filter fun c => c.id != conversationId
        else st.convMap k
      currentConversationId :=
        if st.currentConversationId = some conversationId then none
        else st.currentConversationId }

/-- `title.length > 30 ? title.slice(0, 30) + '...' : title`
(part_001 line 78); the slice is a code-point slice. -/
def trimTitle (title : String) : String :=
  if title.length > 30 then String.mk (title.data.take 30) ++ "..." else title

/-- `updateConversationTitle(title, conversationId = null)` (part_001
lines 74-87): the target id is `conversationId || currentConversationId`;
a no-op when no project is selected or no target resolves; otherwise
the target conversation of the selected project gets the trimmed
title. -/
def updateConversationTitle (selectedProjectId : Option String)
    (st : ChatCtxState) (title : String)
    (conversationId : Option String) : ChatCtxState :=
  let targetConvId := conversationId.orElse fun _ => st.currentConversationId
  match selectedProjectId, targetConvId with
  | some pid, some tid =>
    { st with convMap := fun k =>
        if k = pid then
          (st.convMap pid).map fun c =>
            if c.id == tid then { c with title := trimTitle title } else c
        else st.convMap k }
  | _, _ => st

/-- **C9.** `deleteConversation(id)` removes exactly the conversations
with that id from the selected project's list: survivors are precisely
the other conversations of that project, in order; every other
project's list is untouched; and `currentConversationId` becomes null
when it was the deleted id and is unchanged otherwise. -/
theorem deleteConversation_frame
    (pid : String) (st : ChatCtxState) (cid : String)
    (selectedProjectId : Option String)
    (hsel : selectedProjectId = some pid) :
    ((deleteConversation selectedProjectId st cid).convMap pid =
        (st.convMap pid).filter fun c => c.id != cid) ∧
      (∀ c ∈ (deleteConversation selectedProjectId st cid).convMap pid, c.id ≠ cid) ∧
      (∀ c ∈ st.convMap pid, c.id ≠ cid →
        c ∈ (deleteConversation selectedProjectId st cid).convMap pid) ∧
      (∀ k, k ≠ pid →
        (deleteConversation selectedProjectId st cid).convMap k = st.convMap k) ∧
      (st.currentConversationId = some cid →
        (deleteConversation selectedProjectId st cid).currentConversationId = none) ∧
      (st.currentConversationId ≠ some cid →
        (deleteConversation selectedProjectId st cid).currentConversationId =
          st.currentConversationId) := by
  subst hsel
  refine ⟨?_, ?_, ?_, ?_, ?_, ?_⟩
  · show (if pid = pid then _ else _) = _
    rw [if_pos rfl]
  · intro c hc
    have hre : (deleteConversation (some pid) st cid).convMap pid =
        (st.convMap pid).filter fun c => c.id != cid := by
      show (if pid = pid then _ else _) = _
      rw [if_pos rfl]
    rw [hre] at hc
    have := (List.mem_filter.mp hc).2
    simpa using this
  · intro c hc hne
    show c ∈ (if pid = pid then _ else _)
    rw [if_pos rfl]
    exact List.mem_filter.mpr ⟨hc, by simpa using hne⟩
  · intro k hk
    show (if k = pid then _ else _) = _
    rw [if_neg hk]
  · intro heq
    show (if st.currentConversationId = some cid then none else _) = _
    rw [if_pos heq]
  · intro hne
    show (if st.currentConversationId = some cid then none else _) = _
    rw [if_neg hne]

/-- Witness for C9: deleting conversation "c1" from a two-conversation
project while another project holds its own list. -/
theorem deleteConversation_frame_witness :
    ((deleteConversation (some "p1")
          ⟨fun k => if k = "p1" then
              [⟨"c1", "t1", [], "d1"⟩, ⟨"c2", "t2", [], "d2"⟩]
            else [⟨"c9", "t9", [], "d9"⟩], some "c1"⟩ "c1").convMap "p1" =
        ([⟨"c1", "t1", [], "d1"⟩, ⟨"c2", "t2", [], "d2"⟩].filter
          fun c => c.id != "c1")) ∧
      (∀ c ∈ (deleteConversation (some "p1")
          ⟨fun k => if k = "p1" then
              [⟨"c1", "t1", [], "d1"⟩, ⟨"c2", "t2", [], "d2"⟩]
            else [⟨"c9", "t9", [], "d9"⟩], some "c1"⟩ "c1").convMap "p1",
        c.id ≠ "c1") ∧
      (∀ c ∈ (ChatCtxState.mk (fun k => if k = "p1" then
              [⟨"c1", "t1", [], "d1"⟩, ⟨"c2", "t2", [], "d2"⟩]
            else [⟨"c9", "t9", [], "d9"⟩]) (some "c1")).convMap "p1",
        c.id ≠ "c1" →
        c ∈ (deleteConversation (some "p1")
          ⟨fun k => if k = "p1" then
              [⟨"c1", "t1", [], "d1"⟩, ⟨"c2", "t2", [], "d2"⟩]
            else [⟨"c9", "t9", [], "d9"⟩], some "c1"⟩ "c1").convMap "p1") ∧
      (∀ k, k ≠ "p1" →
        (deleteConversation (some "p1")
          ⟨fun k => if k = "p1" then
              [⟨"c1", "t1", [], "d1"⟩, ⟨"c2", "t2", [], "d2"⟩]
            else [⟨"c9", "t9", [], "d9"⟩], some "c1"⟩ "c1").convMap k =
          (ChatCtxState.mk (fun k => if k = "p1" then
              [⟨"c1", "t1", [], "d1"⟩, ⟨"c2", "t2", [], "d2"⟩]
            else [⟨"c9", "t9", [], "d9"⟩]) (some "c1")).convMap k) ∧
      ((some "c1" : Option String) = some "c1" →
        (deleteConversation (some "p1")
          ⟨fun k => if k = "p1" then
              [⟨"c1", "t1", [], "d1"⟩, ⟨"c2", "t2", [], "d2"⟩]
            else [⟨"c9", "t9", [], "d9"⟩], some "c1"⟩ "c1").currentConversationId =
          none) ∧
      ((some "c1" : Option String) ≠ some "c1" →
        (deleteConversation (some "p1")
          ⟨fun k => if k = "p1" then
              [⟨"c1", "t1", [], "d1"⟩, ⟨"c2", "t2", [], "d2"⟩]
            else [⟨"c9", "t9", [], "d9"⟩], some "c1"⟩ "c1").currentConversationId =
          some "c1") :=
  deleteConversation_frame "p1"
    ⟨fun k => if k = "p1" then
        [⟨"c1", "t1", [], "d1"⟩, ⟨"c2", "t2", [], "d2"⟩]
      else [⟨"c9", "t9", [], "d9"⟩], some "c1"⟩ "c1" (some "p1") rfl

/-- **C10.** `updateConversationTitle` stores the title unchanged when
it has at most 30 characters and otherwise stores exactly the first 30
characters followed by `...` (33 characters total); only the targeted
conversation's title changes (its other fields and all other
conversations and projects are untouched), and the call is a no-op
when no project is selected or no target id resolves. -/
theorem updateConversationTitle_trims_and_frames
    (pid tid : String) (st : ChatCtxState) (title : String)
    (selectedProjectId conversationId : Option String)
    (hsel : selectedProjectId = some pid)
    (htid : conversationId.orElse (fun _ => st.currentConversationId) = some tid) :
    (title.length ≤ 30 → trimTitle title = title) ∧
      (title.length > 30 →
        trimTitle title = String.mk (title.data.take 30) ++ "..." ∧
          (trimTitle title).length = 33) ∧
      ((updateConversationTitle selectedProjectId st title conversationId).convMap pid =
        (st.convMap pid).map fun c =>
          if c.id == tid then { c with title := trimTitle title } else c) ∧
      (∀ k, k ≠ pid →
        (updateConversationTitle selectedProjectId st title conversationId).convMap k =
          st.convMap k) ∧
      (updateConversationTitle selectedProjectId st title conversationId).currentConversationId =
        st.currentConversationId ∧
      (∀ st2 : ChatCtxState, ∀ t2 : String,
        updateConversationTitle none st2 t2 conversationId = st2) ∧
      (∀ st2 : ChatCtxState, ∀ t2 : String, st2.currentConversationId = none →
        updateConversationTitle selectedProjectId st2 t2 none = st2) := by
  subst hsel
  refine ⟨?_, ?_, ?_, ?_, ?_, ?_, ?_⟩
  · intro hle
    unfold trimTitle
    rw [if_neg (by omega)]
  · intro hgt
    refine ⟨?_, ?_⟩
    · unfold trimTitle
      rw [if_pos hgt]
    · unfold trimTitle
      rw [if_pos hgt, String.length_append]
      show (title.data.take 30).length + 3 = 33
      rw [List.length_take]
      have : title.data.length > 30 := hgt
      omega
  · unfold updateConversationTitle
    rw [htid]
    show (if pid = pid then _ else _) = _
    rw [if_pos rfl]
  · intro k hk
    unfold updateConversationTitle
    rw [htid]
    show (if k = pid then _ else _) = _
    rw [if_neg hk]
  · unfold updateConversationTitle
    rw [htid]
  · intro st2 t2
    unfold updateConversationTitle
    cases conversationId.orElse fun _ => st2.currentConversationId <;> rfl
  · intro st2 t2 hcur
    have h0 : (Option.none.orElse fun _ => st2.currentConversationId) =
        st2.currentConversationId := rfl
    unfold updateConversationTitle
    rw [h0, hcur]

/-- Witness for C10: a 35-character title gets trimmed to 33 characters
for conversation "c1" of project "p1". -/
theorem updateConversationTitle_trims_and_frames_witness :
    (("abcdefghijklmnopqrstuvwxyz0123456" : String).length ≤ 30 →
        trimTitle "abcdefghijklmnopqrstuvwxyz0123456" =
          "abcdefghijklmnopqrstuvwxyz0123456") ∧
      (("abcdefghijklmnopqrstuvwxyz0123456" : String).length > 30 →
        trimTitle "abcdefghijklmnopqrstuvwxyz0123456" =
            String.mk (("abcdefghijklmnopqrstuvwxyz0123456" : String).data.take 30) ++
              "..." ∧
          (trimTitle "abcdefghijklmnopqrstuvwxyz0123456").length = 33) ∧
      ((updateConversationTitle (some "p1")
          ⟨fun _ => [⟨"c1", "old", [], "d1"⟩], some "c1"⟩
          "abcdefghijklmnopqrstuvwxyz0123456" none).convMap "p1" =
        ((ChatCtxState.mk (fun _ => [⟨"c1", "old", [], "d1"⟩]) (some "c1")).convMap
            "p1").map fun c =>
          if c.id == "c1" then
            { c with title := trimTitle "abcdefghijklmnopqrstuvwxyz0123456" }
          else c) ∧
      (∀ k, k ≠ "p1" →
        (updateConversationTitle (some "p1")
          ⟨fun _ => [⟨"c1", "old", [], "d1"⟩], some "c1"⟩
          "abcdefghijklmnopqrstuvwxyz0123456" none).convMap k =
          (ChatCtxState.mk (fun _ => [⟨"c1", "old", [], "d1"⟩])
            (some "c1")).convMap k) ∧
      (updateConversationTitle (some "p1")
          ⟨fun _ => [⟨"c1", "old", [], "d1"⟩], some "c1"⟩
          "abcdefghijklmnopqrstuvwxyz0123456" none).currentConversationId =
        (ChatCtxState.mk (fun _ => [⟨"c1", "old", [], "d1"⟩])
          (some "c1")).currentConversationId ∧
      (∀ st2 : ChatCtxState, ∀ t2 : String,
        updateConversationTitle none st2 t2 none = st2) ∧
      (∀ st2 : ChatCtxState, ∀ t2 : String, st2.currentConversationId = none →
        updateConversationTitle (some "p1") st2 t2 none = st2) :=
  updateConversationTitle_trims_and_frames "p1" "c1"
    ⟨fun _ => [⟨"c1", "old", [], "d1"⟩], some "c1"⟩
    "abcdefghijklmnopqrstuvwxyz0123456" (some "p1") none rfl rfl

end CodeRag
